import Mathlib

/-!
Shallow embedding of the DiskBroom analysis engine (`src/disk_broom.py`).

The engine walks a directory tree once and classifies every regular file as
oversized / old / junk, and groups likely duplicates by a SHA-256 content
fingerprint (sampling the first 1 MiB for files larger than 10 MiB).

Modelling conventions:
* The filesystem is an oracle: each visited file is a `FileEntry` carrying the
  directory part and file name of its path together with the answers the OS
  would give (`os.stat` data in `size`/`atime`/`mtime`, whether `os.stat`
  succeeds in `statOk`, and the readable byte content in `content`, `none`
  meaning the content read raises).  The flattened `List FileEntry` is the
  sequence of files `os.walk` yields, in discovery order.
* Python float timestamps are modelled as integers (`Int`); no claim depends
  on sub-second fractions.
* `hashlib.sha256(...).hexdigest()` is modelled by an arbitrary digest
  function `sha256 : List UInt8 → String` passed as a parameter: every
  theorem below holds for every such function, in particular for real
  SHA-256.  Where Python's truthiness test `if file_hash:` matters, the fact
  that a real hex digest is non-empty appears as an explicit hypothesis.
* Reading a file in `block_size` chunks and feeding each chunk to the hasher
  digests exactly the concatenation of the chunks, i.e. the whole content;
  `compute_file_hash` therefore applies the digest to the full byte list
  (or to its first 1 MiB when `sample` is set).
-/

/-- Python strings (paths, file names) are modelled as character lists, so
that every string operation below is structurally recursive and evaluable. -/
abbrev Str := List Char

/-- Python `str.lower` (ASCII case folding, which covers every pattern the
classifier compares against). -/
def strLower (s : Str) : Str := s.map Char.toLower

/-- Python `str.startswith`. -/
def strStarts (s pat : Str) : Bool :=
  match s, pat with
  | _, [] => true
  | [], _ :: _ => false
  | c :: cs, d :: ds => (c == d) && strStarts cs ds

/-- Python `str.endswith`. -/
def strEnds (s pat : Str) : Bool := strStarts s.reverse pat.reverse

/-- One file yielded by the traversal, together with the filesystem oracle's
answers for it: the `os.stat` fields, whether `os.stat` succeeds, and the
byte content (`none` when opening/reading the file raises). -/
structure FileEntry where
  dirpath : Str
  filename : Str
  size : Nat
  atime : Int
  mtime : Int
  statOk : Bool
  content : Option (List UInt8)
deriving DecidableEq

/-- Full path of a visited file, `os.path.join(dirpath, filename)`. -/
def fullPath (f : FileEntry) : Str :=
  f.dirpath ++ [Char.ofNat 47] ++ f.filename

/-- The four threshold parameters of `analyze_files` (the spec's ScanConfig).
They arrive from `argparse` with `type=int`, so each is an arbitrary integer:
fields are `Int` and may hold out-of-range values such as negatives. -/
structure ScanConfig where
  min_duplicate_size : Int
  months : Int
  oversized_threshold : Int
  download_stale_secs : Int
deriving DecidableEq

/-- The dictionary returned by `get_file_attributes`. -/
structure FileAttrs where
  size : Nat
  is_oversized : Bool
  is_old : Bool
  is_stale_download : Bool
  last_access : Int
  last_mod : Int
deriving DecidableEq

/-- The accumulators of the scan loop in `analyze_files`:
`oversized_files`, `old_files`, `junk_files`, `file_hashes`, `scan_errors`.
`file_hashes` is a `defaultdict(list)` and is modelled as an association
list in key-insertion order, each key holding its paths in append order. -/
structure ScanState where
  oversized : List (Str × Nat)
  old : List (Str × Int × Int)
  junk : List (Str × String)
  file_hashes : List (String × List Str)
  scan_errors : List Str
deriving DecidableEq

/-- The argument of `validate_directory_path` together with the filesystem
oracle's answers about it: whether the Python argument was `None`, the
`os.path.expanduser` expansion, and whether that expansion exists and is a
directory. -/
structure RootArg where
  isNone : Bool
  expanded : Str
  pathExists : Bool
  isDir : Bool
deriving DecidableEq

/-- One positional component of the Python tuple `analyze_files` returns.
The early return at the root-validation failure is a 4-tuple, the normal
return a 5-tuple, so the result is modelled as a list of tagged components
whose length is the tuple's arity. -/
inductive RetComp where
  | oversizedL : List (Str × Nat) → RetComp
  | oldL : List (Str × Int × Int) → RetComp
  | junkL : List (Str × String) → RetComp
  | dupM : List (String × List Str) → RetComp
  | errL : List Str → RetComp
deriving DecidableEq

/-- Python `os.path.splitext(name)[1]`: the extension starts at the last dot,
except that a run of dots at the very start of the name never opens an
extension (`.part` has extension `""`, `a.part` has extension `.part`). -/
def splitext_ext (name : Str) : Str :=
  match ((List.range name.length).filter (fun i => name.getD i ' ' == '.')).getLast? with
  | none => []
  | some di =>
      if (List.range di).any (fun i => !(name.getD i ' ' == '.')) then
        name.drop di
      else []

/-- `validate_directory_path` (src/disk_broom.py:23): rejects `None`,
non-existent paths and non-directories; otherwise returns the expanded path. -/
def validate_directory_path (r : RootArg) : Option Str :=
  if r.isNone = true then none
  else if r.pathExists = false then none
  else if r.isDir = false then none
  else some r.expanded

/-- `compute_file_hash` (src/disk_broom.py:61): SHA-256 of the content, of
only the first 1 MiB when `sample` is set; `none` when the read raises.
Reading block-wise digests the concatenation of the blocks, i.e. the whole
content, so the block size does not appear. -/
def compute_file_hash (sha256 : List UInt8 → String) (content : Option (List UInt8))
    (sample : Bool) : Option String :=
  match content with
  | some bs => some (sha256 (if sample = true then bs.take (1024 * 1024) else bs))
  | none => none

/-- `get_file_attributes` (src/disk_broom.py:77): reads `os.stat` data and
derives the `is_oversized`, `is_old` and `is_stale_download` flags; `none`
when `os.stat` raises.  The staleness test is Python's
`file_path.endswith(('.crdownload', '.part'))` on the full path, case
sensitive. -/
def get_file_attributes (f : FileEntry) (now months oversized_threshold download_stale_secs : Int) :
    Option FileAttrs :=
  if f.statOk = true then
    let threshold := now - months * 30 * 24 * 3600
    some ⟨f.size,
      decide (oversized_threshold < (f.size : Int)),
      decide (f.atime < threshold) && decide (f.mtime < threshold),
      if strEnds (fullPath f) ".crdownload".toList || strEnds (fullPath f) ".part".toList then
        decide (download_stale_secs < now - f.mtime)
      else false,
      f.atime,
      f.mtime⟩
  else none

/-- The junk-naming disjunction of `analyze_files` (src/disk_broom.py:200-204),
without the `is_stale_download` disjunct: extension (lower-cased
`splitext`) in the `ext` set, lower-cased name starting with a `prefix`-set
entry, ending with a `suffix`-set entry, or equal to an `exact`-set entry. -/
def matchesJunkName (filename : Str) : Bool :=
  let name_lower := strLower filename
  let ext := strLower (splitext_ext filename)
  [".old".toList, ".part".toList, ".crdownload".toList, ".trash".toList].contains ext
    || (["unconfirmed".toList, "trash".toList, "core".toList].any
          (fun p => strStarts name_lower p))
    || ([".crdownload".toList, ".part".toList, "trash".toList].any
          (fun q => strEnds name_lower q))
    || ([".trash".toList, ".trash-1000".toList].contains name_lower)

/-- Append a path to the list held at key `h` of the `defaultdict(list)`,
creating the key at the end when absent (Python dict insertion order). -/
def addHash (m : List (String × List Str)) (h : String) (p : Str) : List (String × List Str) :=
  match m with
  | [] => [(h, [p])]
  | (k, ps) :: rest => if k = h then (k, ps ++ [p]) :: rest else (k, ps) :: addHash rest h p

/-- The loop body of `analyze_files` (src/disk_broom.py:178-213) for one
visited file: attribute extraction, the three classification appends, and
the conditional hashing into `file_hashes`. -/
def visitFile (now : Int) (sha256 : List UInt8 → String) (cfg : ScanConfig)
    (st : ScanState) (f : FileEntry) : ScanState :=
  match get_file_attributes f now cfg.months cfg.oversized_threshold cfg.download_stale_secs with
  | none =>
      ⟨st.oversized, st.old, st.junk, st.file_hashes,
        st.scan_errors ++ ["Error accessing ".toList ++ fullPath f]⟩
  | some attrs =>
      let st1 : ScanState :=
        if attrs.is_oversized = true then
          ⟨st.oversized ++ [(fullPath f, attrs.size)], st.old, st.junk, st.file_hashes, st.scan_errors⟩
        else st
      let st2 : ScanState :=
        if attrs.is_old = true then
          ⟨st1.oversized, st1.old ++ [(fullPath f, attrs.last_access, attrs.last_mod)],
            st1.junk, st1.file_hashes, st1.scan_errors⟩
        else st1
      let st3 : ScanState :=
        if attrs.size = 0 then
          ⟨st2.oversized, st2.old, st2.junk ++ [(fullPath f, "Empty File")],
            st2.file_hashes, st2.scan_errors⟩
        else if (matchesJunkName f.filename || attrs.is_stale_download) = true then
          ⟨st2.oversized, st2.old,
            st2.junk ++ [(fullPath f,
              if attrs.is_stale_download = true then "Stale Incomplete Download"
              else "Temporary File")],
            st2.file_hashes, st2.scan_errors⟩
        else st2
      if cfg.min_duplicate_size ≤ (attrs.size : Int) then
        match compute_file_hash sha256 f.content (decide (10 * 1024 * 1024 < attrs.size)) with
        | some h =>
            if h = "" then st3
            else ⟨st3.oversized, st3.old, st3.junk, addHash st3.file_hashes h (fullPath f),
              st3.scan_errors⟩
        | none => st3
      else st3

/-- The empty accumulators at the start of the scan loop. -/
def initState : ScanState := ⟨[], [], [], [], []⟩

/-- The whole scan loop of `analyze_files`: fold the loop body over the
traversal sequence. -/
def scanFold (now : Int) (sha256 : List UInt8 → String) (cfg : ScanConfig)
    (walk : List FileEntry) : ScanState :=
  walk.foldl (visitFile now sha256 cfg) initState

/-- The duplicates dictionary of the final report (src/disk_broom.py:215):
only fingerprints holding more than one path survive. -/
def dup_report (now : Int) (sha256 : List UInt8 → String) (cfg : ScanConfig)
    (walk : List FileEntry) : List (String × List Str) :=
  (scanFold now sha256 cfg walk).file_hashes.filter (fun kv => decide (1 < kv.2.length))

/-- `analyze_files` (src/disk_broom.py:158): an invalid root returns the
4-tuple `[], [], [], []`; a completed scan returns the 5-tuple of the four
result collections followed by `scan_errors`. -/
def analyze_files (root : RootArg) (walk : List FileEntry) (now : Int)
    (sha256 : List UInt8 → String) (cfg : ScanConfig) : List RetComp :=
  match validate_directory_path root with
  | none => [RetComp.oversizedL [], RetComp.oldL [], RetComp.junkL [], RetComp.dupM []]
  | some _ =>
      [RetComp.oversizedL (scanFold now sha256 cfg walk).oversized,
       RetComp.oldL (scanFold now sha256 cfg walk).old,
       RetComp.junkL (scanFold now sha256 cfg walk).junk,
       RetComp.dupM (dup_report now sha256 cfg walk),
       RetComp.errL (scanFold now sha256 cfg walk).scan_errors]

/-! Derived per-file descriptions of the loop body's effect, used to state
and prove the claims.  Each is read off the same source lines as
`visitFile`; the bridging lemmas below prove they agree with it. -/

/-- The bytes the hasher digests for a file of the given size: the first
1 MiB when the file exceeds 10 MiB, the whole content otherwise. -/
def hashInput (size : Nat) (bs : List UInt8) : List UInt8 :=
  if 10 * 1024 * 1024 < size then bs.take (1024 * 1024) else bs

/-- The fingerprint a visited file contributes to `file_hashes`, if any:
requires a successful `os.stat`, size at least `min_duplicate_size`,
readable content, and a digest that is truthy (non-empty). -/
def fileDigest (sha256 : List UInt8 → String) (cfg : ScanConfig) (f : FileEntry) :
    Option String :=
  match f.statOk with
  | false => none
  | true =>
      if cfg.min_duplicate_size ≤ (f.size : Int) then
        match f.content with
        | some bs =>
            if sha256 (hashInput f.size bs) = "" then none
            else some (sha256 (hashInput f.size bs))
        | none => none
      else none

/-- The effect of one visited file on `file_hashes` alone. -/
def dupStep (sha256 : List UInt8 → String) (cfg : ScanConfig)
    (m : List (String × List Str)) (f : FileEntry) : List (String × List Str) :=
  match fileDigest sha256 cfg f with
  | some h => addHash m h (fullPath f)
  | none => m

/-- The junk entries one visited file appends (zero or one). -/
def junkEntryOf (now : Int) (cfg : ScanConfig) (f : FileEntry) : List (Str × String) :=
  match get_file_attributes f now cfg.months cfg.oversized_threshold cfg.download_stale_secs with
  | none => []
  | some a =>
      if a.size = 0 then [(fullPath f, "Empty File")]
      else if (matchesJunkName f.filename || a.is_stale_download) = true then
        [(fullPath f,
          if a.is_stale_download = true then "Stale Incomplete Download" else "Temporary File")]
      else []

/-- The old-file entries one visited file appends (zero or one). -/
def oldEntryOf (now : Int) (cfg : ScanConfig) (f : FileEntry) : List (Str × Int × Int) :=
  match get_file_attributes f now cfg.months cfg.oversized_threshold cfg.download_stale_secs with
  | none => []
  | some a => if a.is_old = true then [(fullPath f, a.last_access, a.last_mod)] else []

/-- The oversized entries one visited file appends (zero or one). -/
def overEntryOf (now : Int) (cfg : ScanConfig) (f : FileEntry) : List (Str × Nat) :=
  match get_file_attributes f now cfg.months cfg.oversized_threshold cfg.download_stale_secs with
  | none => []
  | some a => if a.is_oversized = true then [(fullPath f, a.size)] else []

/-- The error entries one visited file appends (zero or one). -/
def errEntryOf (now : Int) (cfg : ScanConfig) (f : FileEntry) : List Str :=
  match get_file_attributes f now cfg.months cfg.oversized_threshold cfg.download_stale_secs with
  | none => ["Error accessing ".toList ++ fullPath f]
  | some _ => []

/-- Concatenation of a per-file entry function over the traversal sequence. -/
def perFileList (g : FileEntry → List α) : List FileEntry → List α
  | [] => []
  | f :: fs => g f ++ perFileList g fs

/-- First-match lookup in an association list, Python `dict` access. -/
def lookupM (m : List (String × List Str)) (h : String) : Option (List Str) :=
  match m with
  | [] => none
  | (k, v) :: rest => if k = h then some v else lookupM rest h

/-- Keys of the association list. -/
def keysD (m : List (String × List Str)) : List String := m.map Prod.fst

/-- The paths of the files that contribute fingerprint `h`, in discovery
order. -/
def contribPaths (sha256 : List UInt8 → String) (cfg : ScanConfig) (h : String)
    (fs : List FileEntry) : List Str :=
  (fs.filter (fun f => decide (fileDigest sha256 cfg f = some h))).map fullPath

/-- Combine a previous lookup result with newly contributed paths. -/
def mergeLook (o : Option (List Str)) (l : List Str) : Option (List Str) :=
  match o with
  | some ps => some (ps ++ l)
  | none => if l = [] then none else some l


theorem visit_over (now : Int) (sha256 : List UInt8 → String) (cfg : ScanConfig)
    (st : ScanState) (f : FileEntry) :
    (visitFile now sha256 cfg st f).oversized = st.oversized ++ overEntryOf now cfg f := by
  unfold visitFile overEntryOf
  cases hA : get_file_attributes f now cfg.months cfg.oversized_threshold cfg.download_stale_secs with
  | none => simp
  | some a =>
      dsimp only
      split_ifs <;>
        (try cases hc : f.content) <;> (try dsimp only [compute_file_hash]) <;>
          (try split_ifs) <;> simp_all

theorem visit_old (now : Int) (sha256 : List UInt8 → String) (cfg : ScanConfig)
    (st : ScanState) (f : FileEntry) :
    (visitFile now sha256 cfg st f).old = st.old ++ oldEntryOf now cfg f := by
  unfold visitFile oldEntryOf
  cases hA : get_file_attributes f now cfg.months cfg.oversized_threshold cfg.download_stale_secs with
  | none => simp
  | some a =>
      dsimp only
      split_ifs <;>
        (try cases hc : f.content) <;> (try dsimp only [compute_file_hash]) <;>
          (try split_ifs) <;> simp_all

theorem visit_junk (now : Int) (sha256 : List UInt8 → String) (cfg : ScanConfig)
    (st : ScanState) (f : FileEntry) :
    (visitFile now sha256 cfg st f).junk = st.junk ++ junkEntryOf now cfg f := by
  unfold visitFile junkEntryOf
  cases hA : get_file_attributes f now cfg.months cfg.oversized_threshold cfg.download_stale_secs with
  | none => simp
  | some a =>
      dsimp only
      split_ifs <;>
        (try cases hc : f.content) <;> (try dsimp only [compute_file_hash]) <;>
          (try split_ifs) <;> simp_all

theorem visit_err (now : Int) (sha256 : List UInt8 → String) (cfg : ScanConfig)
    (st : ScanState) (f : FileEntry) :
    (visitFile now sha256 cfg st f).scan_errors = st.scan_errors ++ errEntryOf now cfg f := by
  unfold visitFile errEntryOf
  cases hA : get_file_attributes f now cfg.months cfg.oversized_threshold cfg.download_stale_secs with
  | none => simp
  | some a =>
      dsimp only
      split_ifs <;>
        (try cases hc : f.content) <;> (try dsimp only [compute_file_hash]) <;>
          (try split_ifs) <;> simp_all

theorem gfa_of_statOk_false (f : FileEntry) (now months ot ds : Int)
    (hst : f.statOk = false) :
    get_file_attributes f now months ot ds = none := by
  unfold get_file_attributes
  rw [hst]
  rfl

theorem gfa_of_statOk_true (f : FileEntry) (now months ot ds : Int)
    (hst : f.statOk = true) :
    get_file_attributes f now months ot ds
      = some ⟨f.size,
          decide (ot < (f.size : Int)),
          decide (f.atime < now - months * 30 * 24 * 3600)
            && decide (f.mtime < now - months * 30 * 24 * 3600),
          if strEnds (fullPath f) ".crdownload".toList || strEnds (fullPath f) ".part".toList then
            decide (ds < now - f.mtime)
          else false,
          f.atime, f.mtime⟩ := by
  unfold get_file_attributes
  rw [hst]
  rfl

theorem statOk_of_gfa_none (f : FileEntry) (now months ot ds : Int)
    (hA : get_file_attributes f now months ot ds = none) : f.statOk = false := by
  cases hst : f.statOk with
  | false => rfl
  | true =>
      rw [gfa_of_statOk_true f now months ot ds hst] at hA
      exact absurd hA (by simp)

theorem gfa_some_inv (f : FileEntry) (now months ot ds : Int) (a : FileAttrs)
    (hA : get_file_attributes f now months ot ds = some a) :
    f.statOk = true ∧
      a = ⟨f.size,
          decide (ot < (f.size : Int)),
          decide (f.atime < now - months * 30 * 24 * 3600)
            && decide (f.mtime < now - months * 30 * 24 * 3600),
          if strEnds (fullPath f) ".crdownload".toList || strEnds (fullPath f) ".part".toList then
            decide (ds < now - f.mtime)
          else false,
          f.atime, f.mtime⟩ := by
  cases hst : f.statOk with
  | false =>
      rw [gfa_of_statOk_false f now months ot ds hst] at hA
      exact absurd hA (by simp)
  | true =>
      rw [gfa_of_statOk_true f now months ot ds hst] at hA
      exact ⟨rfl, (Option.some.inj hA).symm⟩

theorem visit_fh (now : Int) (sha256 : List UInt8 → String) (cfg : ScanConfig)
    (st : ScanState) (f : FileEntry) :
    (visitFile now sha256 cfg st f).file_hashes = dupStep sha256 cfg st.file_hashes f := by
  unfold visitFile dupStep fileDigest
  cases hA : get_file_attributes f now cfg.months cfg.oversized_threshold cfg.download_stale_secs with
  | none =>
      rw [statOk_of_gfa_none f now cfg.months cfg.oversized_threshold cfg.download_stale_secs hA]
  | some a =>
      obtain h2 := gfa_some_inv f now cfg.months cfg.oversized_threshold cfg.download_stale_secs a hA
      rw [h2.1]
      have hsz : a.size = f.size := by rw [h2.2]
      dsimp only
      rw [hsz]
      clear h2 hA hsz
      split_ifs <;>
        (try cases hc : f.content) <;>
          (try dsimp only [compute_file_hash]) <;>
            (try simp only [hashInput, decide_eq_true_eq]) <;>
              (try split_ifs) <;> rfl

/-! Fold-level characterizations of the scan accumulators. -/

theorem perFileList_append (g : FileEntry → List α) (l1 l2 : List FileEntry) :
    perFileList g (l1 ++ l2) = perFileList g l1 ++ perFileList g l2 := by
  induction l1 with
  | nil => simp [perFileList]
  | cons f fs ih => simp [perFileList, ih]

theorem mem_perFileList (g : FileEntry → List α) (a : α) (fs : List FileEntry) :
    a ∈ perFileList g fs ↔ ∃ f, f ∈ fs ∧ a ∈ g f := by
  induction fs with
  | nil => simp [perFileList]
  | cons f fs ih => simp [perFileList, List.mem_append, ih, List.mem_cons, exists_eq_or_imp]

/-- The whole scan loop, described per accumulator. -/
theorem scanFold_components (now : Int) (sha256 : List UInt8 → String) (cfg : ScanConfig)
    (fs : List FileEntry) : ∀ st : ScanState,
    fs.foldl (visitFile now sha256 cfg) st =
      ⟨st.oversized ++ perFileList (overEntryOf now cfg) fs,
       st.old ++ perFileList (oldEntryOf now cfg) fs,
       st.junk ++ perFileList (junkEntryOf now cfg) fs,
       fs.foldl (dupStep sha256 cfg) st.file_hashes,
       st.scan_errors ++ perFileList (errEntryOf now cfg) fs⟩ := by
  induction fs with
  | nil => intro st; simp [perFileList]
  | cons f fs ih =>
      intro st
      rw [List.foldl_cons, ih]
      simp [perFileList, visit_over, visit_old, visit_junk, visit_err, visit_fh,
        List.append_assoc, List.foldl_cons]

/-- The scan result from the empty initial state. -/
theorem scanFold_eq (now : Int) (sha256 : List UInt8 → String) (cfg : ScanConfig)
    (walk : List FileEntry) :
    scanFold now sha256 cfg walk =
      ⟨perFileList (overEntryOf now cfg) walk,
       perFileList (oldEntryOf now cfg) walk,
       perFileList (junkEntryOf now cfg) walk,
       walk.foldl (dupStep sha256 cfg) [],
       perFileList (errEntryOf now cfg) walk⟩ := by
  rw [scanFold, scanFold_components]
  rfl

/-! Association-list lemmas for the `file_hashes` dictionary. -/

theorem lookupM_addHash_self (h : String) (p : Str) (m : List (String × List Str)) :
    lookupM (addHash m h p) h = some (((lookupM m h).getD []) ++ [p]) := by
  induction m with
  | nil => simp [addHash, lookupM]
  | cons kv rest ih =>
      obtain ⟨k, ps⟩ := kv
      by_cases hk : k = h
      · subst hk
        simp [addHash, lookupM]
      · simp [addHash, lookupM, hk, ih]

theorem lookupM_addHash_ne (hh h : String) (p : Str) (m : List (String × List Str))
    (hne : hh ≠ h) : lookupM (addHash m h p) hh = lookupM m hh := by
  induction m with
  | nil =>
      simp only [addHash, lookupM]
      rw [if_neg (fun hkk : h = hh => hne hkk.symm)]
  | cons kv rest ih =>
      obtain ⟨k, ps⟩ := kv
      simp only [addHash]
      by_cases hk : k = h
      · have hkh : ¬ k = hh := fun h2 => hne ((hk.symm.trans h2).symm)
        rw [if_pos hk]
        simp only [lookupM]
        rw [if_neg hkh, if_neg hkh]
      · rw [if_neg hk]
        simp only [lookupM]
        by_cases hk2 : k = hh
        · rw [if_pos hk2, if_pos hk2]
        · rw [if_neg hk2, if_neg hk2]
          exact ih

theorem mem_keysD_addHash (x h : String) (p : Str) (m : List (String × List Str)) :
    x ∈ keysD (addHash m h p) ↔ x ∈ keysD m ∨ x = h := by
  induction m with
  | nil => simp [addHash, keysD]
  | cons kv rest ih =>
      obtain ⟨k, ps⟩ := kv
      simp only [addHash]
      by_cases hk : k = h
      · rw [if_pos hk]
        subst hk
        by_cases hx : x = k <;> simp [keysD, hx]
      · rw [if_neg hk]
        simp only [keysD, List.map_cons, List.mem_cons]
        rw [show keysD (addHash rest h p) = List.map Prod.fst (addHash rest h p) from rfl] at ih
        rw [show keysD rest = List.map Prod.fst rest from rfl] at ih
        rw [ih]
        tauto

theorem nodup_keysD_addHash (h : String) (p : Str) (m : List (String × List Str))
    (hnd : (keysD m).Nodup) : (keysD (addHash m h p)).Nodup := by
  induction m with
  | nil => simp [addHash, keysD]
  | cons kv rest ih =>
      obtain ⟨k, ps⟩ := kv
      simp only [keysD, List.map_cons, List.nodup_cons] at hnd
      simp only [addHash]
      by_cases hk : k = h
      · rw [if_pos hk]
        simp only [keysD, List.map_cons, List.nodup_cons]
        exact hnd
      · rw [if_neg hk]
        simp only [keysD, List.map_cons, List.nodup_cons]
        refine ⟨?_, ih hnd.2⟩
        intro hmem
        rcases (mem_keysD_addHash k h p rest).1 hmem with hcase | hcase
        · exact hnd.1 hcase
        · exact hk hcase

theorem lookupM_eq_none_iff (m : List (String × List Str)) (h : String) :
    lookupM m h = none ↔ h ∉ keysD m := by
  induction m with
  | nil => simp [lookupM, keysD]
  | cons kv rest ih =>
      obtain ⟨k, ps⟩ := kv
      simp only [lookupM, keysD, List.map_cons, List.mem_cons]
      by_cases hk : k = h
      · rw [if_pos hk]
        simp [hk.symm]
      · rw [if_neg hk]
        rw [ih]
        have hk2 : ¬ h = k := fun h2 => hk h2.symm
        simp [hk2, keysD]

theorem mem_of_lookupM (m : List (String × List Str)) (h : String) (ps : List Str)
    (hl : lookupM m h = some ps) : (h, ps) ∈ m := by
  induction m with
  | nil => simp [lookupM] at hl
  | cons kv rest ih =>
      obtain ⟨k, v⟩ := kv
      simp only [lookupM] at hl
      by_cases hk : k = h
      · rw [if_pos hk] at hl
        exact List.mem_cons.2 (Or.inl (by rw [hk, Option.some.inj hl]))
      · rw [if_neg hk] at hl
        exact List.mem_cons_of_mem _ (ih hl)

theorem fst_mem_keysD_of_mem (m : List (String × List Str)) (kv : String × List Str)
    (hmem : kv ∈ m) : kv.1 ∈ keysD m := by
  induction m with
  | nil => simp at hmem
  | cons kv2 rest ih =>
      rcases List.mem_cons.1 hmem with hcase | hcase
      · subst hcase
        simp [keysD]
      · simp only [keysD, List.map_cons, List.mem_cons]
        exact Or.inr (ih hcase)

theorem lookupM_of_mem (m : List (String × List Str)) (h : String) (ps : List Str)
    (hnd : (keysD m).Nodup) (hmem : (h, ps) ∈ m) : lookupM m h = some ps := by
  induction m with
  | nil => simp at hmem
  | cons kv rest ih =>
      obtain ⟨k, v⟩ := kv
      simp only [keysD, List.map_cons, List.nodup_cons] at hnd
      simp only [lookupM]
      rcases List.mem_cons.1 hmem with hcase | hcase
      · have hhk : h = k := congrArg Prod.fst hcase
        have hpv : ps = v := congrArg Prod.snd hcase
        rw [if_pos hhk.symm, hpv]
      · have hk : k ≠ h := by
          intro hkk
          subst hkk
          exact hnd.1 (fst_mem_keysD_of_mem rest (k, ps) hcase)
        rw [if_neg hk]
        exact ih hnd.2 hcase

theorem keysD_filter_subset (pred : List Str → Bool) (m : List (String × List Str)) :
    keysD (m.filter (fun kv => pred kv.2)) ⊆ keysD m := by
  intro x hx
  exact List.map_subset Prod.fst (List.filter_sublist _).subset hx

theorem lookupM_filter (m : List (String × List Str)) (h : String)
    (pred : List Str → Bool) (hnd : (keysD m).Nodup) :
    lookupM (m.filter (fun kv => pred kv.2)) h =
      match lookupM m h with
      | some v => if pred v = true then some v else none
      | none => none := by
  induction m with
  | nil => simp [lookupM]
  | cons kv rest ih =>
      obtain ⟨k, v⟩ := kv
      simp only [keysD, List.map_cons, List.nodup_cons] at hnd
      simp only [List.filter_cons]
      dsimp only
      by_cases hp : pred v = true
      · rw [if_pos hp]
        simp only [lookupM]
        by_cases hk : k = h
        · rw [if_pos hk, if_pos hk]
          dsimp only
          rw [if_pos hp]
        · rw [if_neg hk, if_neg hk]
          exact ih hnd.2
      · rw [if_neg hp]
        simp only [lookupM]
        by_cases hk : k = h
        · rw [if_pos hk]
          dsimp only
          rw [if_neg hp]
          rw [(lookupM_eq_none_iff (rest.filter (fun kv => pred kv.2)) h).2]
          intro hmemf
          exact hnd.1 (hk ▸ keysD_filter_subset pred rest hmemf)
        · rw [if_neg hk]
          exact ih hnd.2

/-! Characterization of the duplicates dictionary built by the fold. -/

theorem mergeLook_nil (o : Option (List Str)) : mergeLook o [] = o := by
  cases o <;> simp [mergeLook]

theorem mergeLook_append (o : Option (List Str)) (l1 l2 : List Str) :
    mergeLook (mergeLook o l1) l2 = mergeLook o (l1 ++ l2) := by
  cases o with
  | some ps => simp [mergeLook]
  | none =>
      by_cases h1 : l1 = []
      · subst h1
        simp [mergeLook]
      · by_cases h2 : l2 = [] <;> simp [mergeLook, h1, h2, List.append_eq_nil]

theorem contribPaths_nil (sha256 : List UInt8 → String) (cfg : ScanConfig) (h : String) :
    contribPaths sha256 cfg h [] = [] := by
  simp [contribPaths]

theorem contribPaths_cons (sha256 : List UInt8 → String) (cfg : ScanConfig) (h : String)
    (f : FileEntry) (fs : List FileEntry) :
    contribPaths sha256 cfg h (f :: fs) =
      (if fileDigest sha256 cfg f = some h then [fullPath f] else [])
        ++ contribPaths sha256 cfg h fs := by
  by_cases hd : fileDigest sha256 cfg f = some h <;>
    simp [contribPaths, List.filter_cons, hd]

theorem contribPaths_append (sha256 : List UInt8 → String) (cfg : ScanConfig) (h : String)
    (l1 l2 : List FileEntry) :
    contribPaths sha256 cfg h (l1 ++ l2) =
      contribPaths sha256 cfg h l1 ++ contribPaths sha256 cfg h l2 := by
  simp [contribPaths, List.filter_append]

theorem lookupM_dupStep (sha256 : List UInt8 → String) (cfg : ScanConfig)
    (m : List (String × List Str)) (f : FileEntry) (h : String) :
    lookupM (dupStep sha256 cfg m f) h =
      mergeLook (lookupM m h) (if fileDigest sha256 cfg f = some h then [fullPath f] else []) := by
  unfold dupStep
  cases hd : fileDigest sha256 cfg f with
  | none =>
      rw [if_neg (fun h3 : (none : Option String) = some h => Option.noConfusion h3)]
      exact (mergeLook_nil _).symm
  | some h2 =>
      by_cases hh : h2 = h
      · subst hh
        rw [lookupM_addHash_self, if_pos rfl]
        cases lookupM m h2 <;> simp [mergeLook]
      · rw [lookupM_addHash_ne h h2 (fullPath f) m (fun h3 => hh h3.symm)]
        rw [if_neg (fun h3 : some h2 = some h => hh (Option.some.inj h3))]
        exact (mergeLook_nil _).symm

theorem lookupM_foldl_dupStep (sha256 : List UInt8 → String) (cfg : ScanConfig) (h : String)
    (fs : List FileEntry) : ∀ m : List (String × List Str),
    lookupM (fs.foldl (dupStep sha256 cfg) m) h =
      mergeLook (lookupM m h) (contribPaths sha256 cfg h fs) := by
  induction fs with
  | nil =>
      intro m
      rw [List.foldl_nil, contribPaths_nil, mergeLook_nil]
  | cons f fs ih =>
      intro m
      rw [List.foldl_cons, ih, lookupM_dupStep, mergeLook_append, ← contribPaths_cons]

theorem nodup_keysD_dupStep (sha256 : List UInt8 → String) (cfg : ScanConfig)
    (m : List (String × List Str)) (f : FileEntry) (hnd : (keysD m).Nodup) :
    (keysD (dupStep sha256 cfg m f)).Nodup := by
  unfold dupStep
  cases fileDigest sha256 cfg f with
  | none => exact hnd
  | some h2 => exact nodup_keysD_addHash h2 (fullPath f) m hnd

theorem nodup_keysD_foldl (sha256 : List UInt8 → String) (cfg : ScanConfig)
    (fs : List FileEntry) : ∀ m : List (String × List Str), (keysD m).Nodup →
    (keysD (fs.foldl (dupStep sha256 cfg) m)).Nodup := by
  induction fs with
  | nil => intro m hnd; exact hnd
  | cons f fs ih =>
      intro m hnd
      rw [List.foldl_cons]
      exact ih _ (nodup_keysD_dupStep sha256 cfg m f hnd)

theorem fh_lookup (now : Int) (sha256 : List UInt8 → String) (cfg : ScanConfig)
    (walk : List FileEntry) (h : String) :
    lookupM (scanFold now sha256 cfg walk).file_hashes h =
      (if contribPaths sha256 cfg h walk = [] then none
       else some (contribPaths sha256 cfg h walk)) := by
  rw [scanFold_eq]
  dsimp only
  rw [lookupM_foldl_dupStep]
  rfl

theorem nodup_fh (now : Int) (sha256 : List UInt8 → String) (cfg : ScanConfig)
    (walk : List FileEntry) : (keysD (scanFold now sha256 cfg walk).file_hashes).Nodup := by
  rw [scanFold_eq]
  dsimp only
  exact nodup_keysD_foldl sha256 cfg walk [] (by simp [keysD])

theorem dup_report_lookup (now : Int) (sha256 : List UInt8 → String) (cfg : ScanConfig)
    (walk : List FileEntry) (h : String) :
    lookupM (dup_report now sha256 cfg walk) h =
      if 1 < (contribPaths sha256 cfg h walk).length then some (contribPaths sha256 cfg h walk)
      else none := by
  unfold dup_report
  rw [lookupM_filter (scanFold now sha256 cfg walk).file_hashes h
    (fun v => decide (1 < v.length)) (nodup_fh now sha256 cfg walk), fh_lookup]
  by_cases hc : contribPaths sha256 cfg h walk = []
  · rw [if_pos hc, hc]
    simp
  · rw [if_neg hc]
    dsimp only
    by_cases hlen : 1 < (contribPaths sha256 cfg h walk).length <;> simp [hlen]

theorem nodup_dup_report (now : Int) (sha256 : List UInt8 → String) (cfg : ScanConfig)
    (walk : List FileEntry) : (keysD (dup_report now sha256 cfg walk)).Nodup :=
  List.Nodup.sublist ((List.filter_sublist _).map Prod.fst) (nodup_fh now sha256 cfg walk)

/-! Concrete instances used by the witness theorems. -/

/-- A concrete digest function standing in for SHA-256 in witnesses. -/
def sha0 : List UInt8 → String := fun _ => "h"

/-- The CLI default thresholds with `min_duplicate_size` 0. -/
def cfg0 : ScanConfig := ⟨0, 6, 1024 * 1024 * 1024, 3600⟩

/-- An empty file whose name also matches junk patterns (`.old` extension and
`trash` name start). -/
def fW1 : FileEntry := ⟨"/d".toList, "trash.old".toList, 0, 0, 0, true, some []⟩

/-- A non-empty, non-stale file whose lower-cased name starts with `trash`. -/
def fW2 : FileEntry := ⟨"/d".toList, "trash1.txt".toList, 5, 0, 0, true, some [1]⟩

/-- A file old on both timestamps. -/
def fW3 : FileEntry := ⟨"/d".toList, "olddoc.txt".toList, 5, -20000000, -20000000, true, some [1]⟩

/-- The attributes of `fW3` at `now = 0` under `cfg0`. -/
def aW3 : FileAttrs := ⟨5, false, true, false, -20000000, -20000000⟩

/-- A hidden file named exactly `.part`: its `splitext` extension is empty. -/
def f4c : FileEntry := ⟨"/tmp".toList, ".part".toList, 1, 0, 0, true, some []⟩

/-- A stale incomplete download named `x.part`. -/
def f4w : FileEntry := ⟨"/d".toList, "x.part".toList, 1, 0, 0, true, some []⟩

/-- The attributes of `f4w` at `now = 1000000`, months 6, oversized 10^9,
stale seconds 3600. -/
def a4w : FileAttrs := ⟨1, false, false, true, 0, 0⟩

/-! Claim theorems. -/

/-- C1: for every visited file whose metadata read succeeds, if its size is 0
then the junk list records it with reason EmptyFile (the string
`"Empty File"`), and this entry is appended whether or not the name matches
any junk naming pattern: the visit appends exactly that one entry, and the
entry is in the junk list of the completed scan. -/
theorem c1_empty_file_priority (now : Int) (sha256 : List UInt8 → String) (cfg : ScanConfig)
    (st : ScanState) (pre post : List FileEntry) (f : FileEntry)
    (hst : f.statOk = true) (hsz : f.size = 0) :
    (visitFile now sha256 cfg st f).junk = st.junk ++ [(fullPath f, "Empty File")]
    ∧ (fullPath f, "Empty File") ∈ (scanFold now sha256 cfg (pre ++ f :: post)).junk := by
  have hj : junkEntryOf now cfg f = [(fullPath f, "Empty File")] := by
    unfold junkEntryOf
    rw [gfa_of_statOk_true f now cfg.months cfg.oversized_threshold cfg.download_stale_secs hst]
    dsimp only
    rw [if_pos hsz]
  constructor
  · rw [visit_junk, hj]
  · rw [scanFold_eq]
    dsimp only
    rw [perFileList_append]
    simp [perFileList, hj, List.mem_append]

/-- C1 witness: an empty file named `trash.old` (which also matches the
junk naming patterns) is recorded as `"Empty File"`. -/
theorem c1_empty_file_priority_witness :
    (visitFile 0 sha0 cfg0 initState fW1).junk = initState.junk ++ [(fullPath fW1, "Empty File")]
    ∧ (fullPath fW1, "Empty File") ∈ (scanFold 0 sha0 cfg0 ([] ++ fW1 :: [])).junk :=
  c1_empty_file_priority 0 sha0 cfg0 initState [] [] fW1 rfl rfl

/-- C2: for every visited file with size > 0, if its stale-download flag is
set the junk list records it as `"Stale Incomplete Download"`; otherwise if
its name matches a junk naming pattern (extension, lower-cased name start,
lower-cased name end, or exact lower-cased name, the sets of
`matchesJunkName`) it is recorded as `"Temporary File"`; a file matching
neither receives no junk entry from its visit. -/
theorem c2_junk_naming (now : Int) (sha256 : List UInt8 → String) (cfg : ScanConfig)
    (st : ScanState) (pre post : List FileEntry) (f : FileEntry) (a : FileAttrs)
    (hA : get_file_attributes f now cfg.months cfg.oversized_threshold cfg.download_stale_secs
      = some a)
    (hsz : a.size ≠ 0) :
    (a.is_stale_download = true →
      (visitFile now sha256 cfg st f).junk
          = st.junk ++ [(fullPath f, "Stale Incomplete Download")]
        ∧ (fullPath f, "Stale Incomplete Download")
            ∈ (scanFold now sha256 cfg (pre ++ f :: post)).junk)
    ∧ (matchesJunkName f.filename = true → a.is_stale_download = false →
      (visitFile now sha256 cfg st f).junk = st.junk ++ [(fullPath f, "Temporary File")]
        ∧ (fullPath f, "Temporary File") ∈ (scanFold now sha256 cfg (pre ++ f :: post)).junk)
    ∧ (matchesJunkName f.filename = false → a.is_stale_download = false →
      (visitFile now sha256 cfg st f).junk = st.junk) := by
  refine ⟨fun hstale => ?_, fun hname hstale => ?_, fun hname hstale => ?_⟩
  · have hj : junkEntryOf now cfg f = [(fullPath f, "Stale Incomplete Download")] := by
      unfold junkEntryOf
      rw [hA]
      dsimp only
      rw [if_neg hsz, hstale]
      simp
    constructor
    · rw [visit_junk, hj]
    · rw [scanFold_eq]
      dsimp only
      rw [perFileList_append]
      simp [perFileList, hj, List.mem_append]
  · have hj : junkEntryOf now cfg f = [(fullPath f, "Temporary File")] := by
      unfold junkEntryOf
      rw [hA]
      dsimp only
      rw [if_neg hsz, hname, hstale]
      simp
    constructor
    · rw [visit_junk, hj]
    · rw [scanFold_eq]
      dsimp only
      rw [perFileList_append]
      simp [perFileList, hj, List.mem_append]
  · have hj : junkEntryOf now cfg f = [] := by
      unfold junkEntryOf
      rw [hA]
      dsimp only
      rw [if_neg hsz, hname, hstale]
      simp
    rw [visit_junk, hj, List.append_nil]

/-- C2 witness: the non-empty file `trash1.txt` (name starts with `trash`,
stale flag clear) is recorded as `"Temporary File"`. -/
theorem c2_junk_naming_witness :
    (visitFile 0 sha0 cfg0 initState fW2).junk = initState.junk ++ [(fullPath fW2, "Temporary File")]
    ∧ (fullPath fW2, "Temporary File") ∈ (scanFold 0 sha0 cfg0 ([] ++ fW2 :: [])).junk :=
  (c2_junk_naming 0 sha0 cfg0 initState [] [] fW2 ⟨5, false, false, false, 0, 0⟩
    (by decide) (by decide)).2.1 (by decide) (by decide)

/-- C3: for every file whose metadata read succeeds, `is_old` is true exactly
when BOTH the last-access and the last-modified time are more than
`months * 30 * 24 * 3600` seconds before `now` (a conjunction); a visit
appends the file to the old list exactly when `is_old` holds; and every
entry of the completed scan's old list comes from a visited file whose
`is_old` flag is true. -/
theorem c3_old_conjunction (now : Int) (sha256 : List UInt8 → String) (cfg : ScanConfig)
    (st : ScanState) (walk : List FileEntry) (f : FileEntry) (a : FileAttrs)
    (hA : get_file_attributes f now cfg.months cfg.oversized_threshold cfg.download_stale_secs
      = some a) :
    (a.is_old = true ↔
      (cfg.months * 30 * 24 * 3600 < now - f.atime ∧ cfg.months * 30 * 24 * 3600 < now - f.mtime))
    ∧ (visitFile now sha256 cfg st f).old
        = st.old ++ (if a.is_old = true then [(fullPath f, a.last_access, a.last_mod)] else [])
    ∧ (∀ e, e ∈ (scanFold now sha256 cfg walk).old →
        ∃ g b, g ∈ walk
          ∧ get_file_attributes g now cfg.months cfg.oversized_threshold cfg.download_stale_secs
              = some b
          ∧ b.is_old = true ∧ e = (fullPath g, b.last_access, b.last_mod)) := by
  refine ⟨?_, ?_, ?_⟩
  · have hae := (gfa_some_inv f now cfg.months cfg.oversized_threshold cfg.download_stale_secs
      a hA).2
    rw [hae]
    dsimp only
    rw [Bool.and_eq_true, decide_eq_true_eq, decide_eq_true_eq]
    omega
  · rw [visit_old]
    unfold oldEntryOf
    rw [hA]
  · intro e hmem
    rw [scanFold_eq] at hmem
    dsimp only at hmem
    obtain ⟨g, hg, he⟩ := (mem_perFileList (oldEntryOf now cfg) e walk).1 hmem
    unfold oldEntryOf at he
    cases hB : get_file_attributes g now cfg.months cfg.oversized_threshold
        cfg.download_stale_secs with
    | none => rw [hB] at he; simp at he
    | some b =>
        rw [hB] at he
        dsimp only at he
        by_cases hold : b.is_old = true
        · rw [if_pos hold] at he
          simp only [List.mem_singleton] at he
          exact ⟨g, b, hg, hB, hold, he⟩
        · rw [if_neg hold] at he
          simp at he

/-- C3 witness: a file last accessed and modified well over six months before
`now = 0` has `is_old` and is appended to the old list. -/
theorem c3_old_conjunction_witness :
    (aW3.is_old = true ↔
      (cfg0.months * 30 * 24 * 3600 < 0 - fW3.atime ∧ cfg0.months * 30 * 24 * 3600 < 0 - fW3.mtime))
    ∧ (visitFile 0 sha0 cfg0 initState fW3).old
        = initState.old ++ (if aW3.is_old = true then [(fullPath fW3, aW3.last_access, aW3.last_mod)] else [])
    ∧ (∀ e, e ∈ (scanFold 0 sha0 cfg0 [fW3]).old →
        ∃ g b, g ∈ [fW3]
          ∧ get_file_attributes g 0 cfg0.months cfg0.oversized_threshold cfg0.download_stale_secs
              = some b
          ∧ b.is_old = true ∧ e = (fullPath g, b.last_access, b.last_mod)) :=
  c3_old_conjunction 0 sha0 cfg0 initState [fW3] fW3 aW3 (by decide)

/-- Reading of C4's antecedent: the file's extension (Python
`os.path.splitext`, as the classifier derives it) is `.crdownload` or
`.part`, and the file is older than the stale threshold. -/
def staleSpecC4 (now ds : Int) (f : FileEntry) : Prop :=
  (splitext_ext f.filename = ".crdownload".toList ∨ splitext_ext f.filename = ".part".toList)
    ∧ ds < now - f.mtime

/-- C4 counterexample: a stale file named exactly `.part` has an empty
`splitext` extension, yet the code sets `is_stale_download` (the check is
`file_path.endswith(('.crdownload', '.part'))`, not an extension test), so
the flag is not equivalent to the claimed extension condition. -/
theorem c4_extension_counterexample :
    (get_file_attributes f4c 1000000 6 1000000000 3600).map FileAttrs.is_stale_download
        = some true
    ∧ splitext_ext f4c.filename = []
    ∧ ¬ staleSpecC4 1000000 3600 f4c := by
  refine ⟨by decide, by decide, ?_⟩
  intro hspec
  rcases hspec.1 with hcase | hcase <;> revert hcase <;> decide

/-- C4 amended: for every file whose metadata read succeeds,
`is_stale_download` is true iff the file's full path ends with
`.crdownload` or `.part` (case-sensitively) AND the time since its last
modification exceeds `download_stale_secs`; for paths ending in neither
suffix it is false regardless of age. -/
theorem c4_stale_download_iff (f : FileEntry) (now months ot ds : Int) (a : FileAttrs)
    (hA : get_file_attributes f now months ot ds = some a) :
    a.is_stale_download = true ↔
      ((strEnds (fullPath f) ".crdownload".toList = true
          ∨ strEnds (fullPath f) ".part".toList = true)
        ∧ ds < now - f.mtime) := by
  have hae := (gfa_some_inv f now months ot ds a hA).2
  rw [hae]
  dsimp only
  by_cases he : (strEnds (fullPath f) ".crdownload".toList
      || strEnds (fullPath f) ".part".toList) = true
  · rw [if_pos he]
    rw [Bool.or_eq_true] at he
    simp only [decide_eq_true_eq]
    exact ⟨fun h => ⟨he, h⟩, fun h => h.2⟩
  · rw [if_neg he]
    rw [Bool.or_eq_true] at he
    push_neg at he
    simp only [Bool.not_eq_true] at he
    constructor
    · intro h
      exact Bool.noConfusion h
    · rintro ⟨hdisj, h2⟩
      rcases hdisj with h1 | h1
      · rw [he.1] at h1
        exact Bool.noConfusion h1
      · rw [he.2] at h1
        exact Bool.noConfusion h1

/-- C4 amended witness: `x.part`, last modified well beyond the threshold,
has the flag set, matching the suffix-and-age condition. -/
theorem c4_stale_download_iff_witness :
    get_file_attributes f4w 1000000 6 1000000000 3600 = some a4w
    ∧ (a4w.is_stale_download = true ↔
        ((strEnds (fullPath f4w) ".crdownload".toList = true
            ∨ strEnds (fullPath f4w) ".part".toList = true)
          ∧ (3600 : Int) < 1000000 - f4w.mtime)) :=
  ⟨by decide, c4_stale_download_iff f4w 1000000 6 1000000000 3600 a4w (by decide)⟩

/-! Inversion and forward lemmas for the per-file fingerprint. -/

theorem fileDigest_some_inv (sha256 : List UInt8 → String) (cfg : ScanConfig) (f : FileEntry)
    (h : String) (hd : fileDigest sha256 cfg f = some h) :
    f.statOk = true ∧ cfg.min_duplicate_size ≤ (f.size : Int)
      ∧ ∃ bs, f.content = some bs ∧ sha256 (hashInput f.size bs) = h ∧ h ≠ "" := by
  unfold fileDigest at hd
  cases hst : f.statOk with
  | false =>
      rw [hst] at hd
      exact absurd hd (by simp)
  | true =>
      rw [hst] at hd
      dsimp only at hd
      by_cases hm : cfg.min_duplicate_size ≤ (f.size : Int)
      · rw [if_pos hm] at hd
        cases hc : f.content with
        | none =>
            rw [hc] at hd
            exact absurd hd (by simp)
        | some bs =>
            rw [hc] at hd
            dsimp only at hd
            by_cases hz : sha256 (hashInput f.size bs) = ""
            · rw [if_pos hz] at hd
              exact absurd hd (by simp)
            · rw [if_neg hz] at hd
              have heq := Option.some.inj hd
              refine ⟨rfl, hm, bs, rfl, heq, ?_⟩
              rw [← heq]
              exact hz
      · rw [if_neg hm] at hd
        exact absurd hd (by simp)

theorem fileDigest_eq_some (sha256 : List UInt8 → String) (cfg : ScanConfig) (f : FileEntry)
    (bs : List UInt8) (hst : f.statOk = true) (hm : cfg.min_duplicate_size ≤ (f.size : Int))
    (hc : f.content = some bs) (hne : sha256 (hashInput f.size bs) ≠ "") :
    fileDigest sha256 cfg f = some (sha256 (hashInput f.size bs)) := by
  unfold fileDigest
  rw [hst]
  dsimp only
  rw [if_pos hm, hc]
  dsimp only
  rw [if_neg hne]

theorem mem_contribPaths (sha256 : List UInt8 → String) (cfg : ScanConfig) (h : String)
    (walk : List FileEntry) (p : Str) :
    p ∈ contribPaths sha256 cfg h walk ↔
      ∃ g, g ∈ walk ∧ fileDigest sha256 cfg g = some h ∧ fullPath g = p := by
  unfold contribPaths
  simp only [List.mem_map, List.mem_filter, decide_eq_true_eq]
  constructor
  · rintro ⟨g, ⟨hg, hdg⟩, hp⟩
    exact ⟨g, hg, hdg, hp⟩
  · rintro ⟨g, hg, hdg, hp⟩
    exact ⟨g, ⟨hg, hdg⟩, hp⟩

theorem compute_file_hash_content (sha256 : List UInt8 → String) (co : Option (List UInt8))
    (bs : List UInt8) (hc : co = some bs) (n : Nat) :
    compute_file_hash sha256 co (decide (10 * 1024 * 1024 < n)) = some (sha256 (hashInput n bs)) := by
  rw [hc]
  unfold compute_file_hash hashInput
  simp [decide_eq_true_eq]

/-- A small file below a 10-byte duplicate threshold. -/
def fW5 : FileEntry := ⟨"/d".toList, "tiny.txt".toList, 1, 0, 0, true, some [1]⟩

/-- A config whose duplicate threshold is 10 bytes. -/
def cfg5 : ScanConfig := ⟨10, 6, 1024 * 1024 * 1024, 3600⟩

/-- C5: a visited file with size below `min_duplicate_size` contributes no
fingerprint (the visit leaves `file_hashes` unchanged); every path of every
duplicate set of the final report comes from a visited file of size at
least `min_duplicate_size` with readable content (so a smaller file never
appears, whatever its content); and for a file of size at least the
threshold with readable content the visit records its fingerprint. -/
theorem c5_min_duplicate_size (now : Int) (sha256 : List UInt8 → String) (cfg : ScanConfig)
    (walk : List FileEntry) :
    (∀ st f, (f.size : Int) < cfg.min_duplicate_size →
      (visitFile now sha256 cfg st f).file_hashes = st.file_hashes)
    ∧ (∀ h ps p, (h, ps) ∈ dup_report now sha256 cfg walk → p ∈ ps →
      ∃ g, g ∈ walk ∧ fullPath g = p ∧ g.statOk = true
        ∧ cfg.min_duplicate_size ≤ (g.size : Int) ∧ g.content ≠ none)
    ∧ (∀ st f bs, f.statOk = true → cfg.min_duplicate_size ≤ (f.size : Int) →
      f.content = some bs → sha256 (hashInput f.size bs) ≠ "" →
      (visitFile now sha256 cfg st f).file_hashes
        = addHash st.file_hashes (sha256 (hashInput f.size bs)) (fullPath f)) := by
  refine ⟨?_, ?_, ?_⟩
  · intro st f hsz
    rw [visit_fh]
    unfold dupStep fileDigest
    cases hst : f.statOk with
    | false => rfl
    | true =>
        dsimp only
        rw [if_neg (by omega)]
  · intro h ps p hmem hp
    have hlk : lookupM (dup_report now sha256 cfg walk) h = some ps :=
      lookupM_of_mem _ _ _ (nodup_dup_report now sha256 cfg walk) hmem
    rw [dup_report_lookup] at hlk
    by_cases hlen : 1 < (contribPaths sha256 cfg h walk).length
    · rw [if_pos hlen] at hlk
      have hps := Option.some.inj hlk
      rw [← hps] at hp
      obtain ⟨g, hg, hdg, hgp⟩ := (mem_contribPaths sha256 cfg h walk p).1 hp
      obtain ⟨hst, hm, bs, hc, hh, hne⟩ := fileDigest_some_inv sha256 cfg g h hdg
      refine ⟨g, hg, hgp, hst, hm, ?_⟩
      rw [hc]
      exact fun hcn => Option.noConfusion hcn
    · rw [if_neg hlen] at hlk
      exact absurd hlk (by simp)
  · intro st f bs hst hm hc hne
    rw [visit_fh]
    unfold dupStep
    rw [fileDigest_eq_some sha256 cfg f bs hst hm hc hne]

/-- C5 witness: a 1-byte file under a 10-byte threshold leaves `file_hashes`
unchanged, and a 5-byte file under a 0-byte threshold records its
fingerprint. -/
theorem c5_min_duplicate_size_witness :
    (visitFile 0 sha0 cfg5 initState fW5).file_hashes = initState.file_hashes
    ∧ (visitFile 0 sha0 cfg0 initState fW2).file_hashes
        = addHash initState.file_hashes (sha0 (hashInput fW2.size [1])) (fullPath fW2) :=
  ⟨(c5_min_duplicate_size 0 sha0 cfg5 []).1 initState fW5 (by decide),
   (c5_min_duplicate_size 0 sha0 cfg0 []).2.2 initState fW2 [1] rfl (by decide) rfl (by decide)⟩

/-- Two 3-byte files with identical content. -/
def fW6a : FileEntry := ⟨"/d".toList, "a.txt".toList, 3, 0, 0, true, some [1, 2, 3]⟩

/-- Second copy of the same content under another name. -/
def fW6b : FileEntry := ⟨"/d".toList, "b.txt".toList, 3, 0, 0, true, some [1, 2, 3]⟩

/-- C6: the fingerprint is a function of the digested bytes: two hashed
files at most 10 MiB with identical content, or two hashed files above
10 MiB with identical first 1 MiB, receive the same fingerprint
(`compute_file_hash` agrees on them) and the duplicates map of the final
report holds one set containing both paths. -/
theorem c6_fingerprint_deterministic (now : Int) (sha256 : List UInt8 → String) (cfg : ScanConfig)
    (walk l1 l2 l3 : List FileEntry) (f1 f2 : FileEntry) (c1 c2 : List UInt8)
    (hw : walk = l1 ++ f1 :: (l2 ++ f2 :: l3))
    (hst1 : f1.statOk = true) (hst2 : f2.statOk = true)
    (hm1 : cfg.min_duplicate_size ≤ (f1.size : Int))
    (hm2 : cfg.min_duplicate_size ≤ (f2.size : Int))
    (hc1 : f1.content = some c1) (hc2 : f2.content = some c2)
    (hcase : (f1.size ≤ 10 * 1024 * 1024 ∧ f2.size ≤ 10 * 1024 * 1024 ∧ c1 = c2)
      ∨ (10 * 1024 * 1024 < f1.size ∧ 10 * 1024 * 1024 < f2.size
          ∧ c1.take (1024 * 1024) = c2.take (1024 * 1024)))
    (hne : sha256 (hashInput f1.size c1) ≠ "") :
    compute_file_hash sha256 f1.content (decide (10 * 1024 * 1024 < f1.size))
        = compute_file_hash sha256 f2.content (decide (10 * 1024 * 1024 < f2.size))
    ∧ ∃ ps, (sha256 (hashInput f1.size c1), ps) ∈ dup_report now sha256 cfg walk
        ∧ fullPath f1 ∈ ps ∧ fullPath f2 ∈ ps := by
  have hhi : hashInput f1.size c1 = hashInput f2.size c2 := by
    unfold hashInput
    rcases hcase with ⟨hs1, hs2, hcc⟩ | ⟨hs1, hs2, hcc⟩
    · rw [if_neg (by omega), if_neg (by omega), hcc]
    · rw [if_pos hs1, if_pos hs2]
      exact hcc
  have hd1 : fileDigest sha256 cfg f1 = some (sha256 (hashInput f1.size c1)) :=
    fileDigest_eq_some sha256 cfg f1 c1 hst1 hm1 hc1 hne
  have hd2 : fileDigest sha256 cfg f2 = some (sha256 (hashInput f1.size c1)) := by
    rw [hhi] at hne ⊢
    exact fileDigest_eq_some sha256 cfg f2 c2 hst2 hm2 hc2 hne
  have hcontrib : contribPaths sha256 cfg (sha256 (hashInput f1.size c1)) walk
      = contribPaths sha256 cfg (sha256 (hashInput f1.size c1)) l1
        ++ ([fullPath f1] ++ (contribPaths sha256 cfg (sha256 (hashInput f1.size c1)) l2
          ++ ([fullPath f2] ++ contribPaths sha256 cfg (sha256 (hashInput f1.size c1)) l3))) := by
    rw [hw, contribPaths_append, contribPaths_cons, contribPaths_append, contribPaths_cons,
      if_pos hd1, if_pos hd2]
  have hlen : 1 < (contribPaths sha256 cfg (sha256 (hashInput f1.size c1)) walk).length := by
    rw [hcontrib]
    simp only [List.length_append, List.length_singleton]
    omega
  constructor
  · rw [compute_file_hash_content sha256 f1.content c1 hc1 f1.size,
      compute_file_hash_content sha256 f2.content c2 hc2 f2.size, hhi]
  · refine ⟨contribPaths sha256 cfg (sha256 (hashInput f1.size c1)) walk, ?_, ?_, ?_⟩
    · apply mem_of_lookupM
      rw [dup_report_lookup, if_pos hlen]
    · rw [hcontrib]
      simp [List.mem_append]
    · rw [hcontrib]
      simp [List.mem_append]

/-- C6 witness: `a.txt` and `b.txt`, 3 bytes each with identical content,
share a fingerprint and land in one reported duplicate set. -/
theorem c6_fingerprint_deterministic_witness :
    compute_file_hash sha0 fW6a.content (decide (10 * 1024 * 1024 < fW6a.size))
        = compute_file_hash sha0 fW6b.content (decide (10 * 1024 * 1024 < fW6b.size))
    ∧ ∃ ps, (sha0 (hashInput fW6a.size [1, 2, 3]), ps) ∈ dup_report 0 sha0 cfg0 [fW6a, fW6b]
        ∧ fullPath fW6a ∈ ps ∧ fullPath fW6b ∈ ps :=
  c6_fingerprint_deterministic 0 sha0 cfg0 [fW6a, fW6b] [] [] [] fW6a fW6b [1, 2, 3] [1, 2, 3]
    rfl rfl rfl (by decide) (by decide) rfl rfl
    (Or.inl ⟨by decide, by decide, rfl⟩) (by decide)

/-- C7: the duplicates map of the final report, characterized: looking up any
fingerprint yields exactly the contributing paths in discovery order when
there are at least two of them and nothing otherwise; its keys are
distinct; and every entry of the map holds more than one path, namely the
discovery-ordered contributor paths of its fingerprint. -/
theorem c7_duplicate_report (now : Int) (sha256 : List UInt8 → String) (cfg : ScanConfig)
    (walk : List FileEntry) :
    (∀ h, lookupM (dup_report now sha256 cfg walk) h =
      if 1 < (contribPaths sha256 cfg h walk).length then some (contribPaths sha256 cfg h walk)
      else none)
    ∧ (keysD (dup_report now sha256 cfg walk)).Nodup
    ∧ (∀ h ps, (h, ps) ∈ dup_report now sha256 cfg walk →
      1 < ps.length ∧ ps = contribPaths sha256 cfg h walk) := by
  refine ⟨dup_report_lookup now sha256 cfg walk, nodup_dup_report now sha256 cfg walk, ?_⟩
  intro h ps hmem
  have hlk : lookupM (dup_report now sha256 cfg walk) h = some ps :=
    lookupM_of_mem _ _ _ (nodup_dup_report now sha256 cfg walk) hmem
  rw [dup_report_lookup] at hlk
  by_cases hlen : 1 < (contribPaths sha256 cfg h walk).length
  · rw [if_pos hlen] at hlk
    have hps := Option.some.inj hlk
    rw [hps] at hlen
    exact ⟨hlen, hps.symm⟩
  · rw [if_neg hlen] at hlk
    exact absurd hlk (by simp)

/-- C7 witness: in the two-file duplicate scan, the reported set for the
shared fingerprint holds both paths, in discovery order. -/
theorem c7_duplicate_report_witness :
    1 < ([fullPath fW6a, fullPath fW6b] : List Str).length
    ∧ [fullPath fW6a, fullPath fW6b] = contribPaths sha0 cfg0 "h" [fW6a, fW6b] :=
  (c7_duplicate_report 0 sha0 cfg0 [fW6a, fW6b]).2.2 "h" [fullPath fW6a, fullPath fW6b]
    (by decide)

/-- A readable-metadata file whose content read fails. -/
def f8 : FileEntry := ⟨"/d".toList, "data.bin".toList, 100, 0, 0, true, none⟩

/-- A valid root directory argument. -/
def rootOK : RootArg := ⟨false, "/d".toList, true, true⟩

/-- A `None` root argument. -/
def rootBad : RootArg := ⟨true, [], false, false⟩

/-- C8 counterexample: scanning a single eligible file whose content read
fails produces a report whose duplicates map omits it AND whose error list
is empty: the read failure is only printed and logged
(src/disk_broom.py:72-75), never appended to `scan_errors`, contradicting
the claim that it is accumulated in the report. -/
theorem c8_read_error_counterexample :
    analyze_files rootOK [f8] 0 sha0 cfg0
      = [RetComp.oversizedL [], RetComp.oldL [], RetComp.junkL [],
         RetComp.dupM [], RetComp.errL []] := by decide

/-- C8 amended: for every eligible file whose content read fails during
hashing, the file is omitted from the duplicate index and the scan's error
list is left unchanged (the failure is reported only via console/log, and
`scan_errors` records only metadata-read failures). -/
theorem c8_read_error_amended (now : Int) (sha256 : List UInt8 → String) (cfg : ScanConfig)
    (st : ScanState) (f : FileEntry) (hst : f.statOk = true)
    (hm : cfg.min_duplicate_size ≤ (f.size : Int)) (hc : f.content = none) :
    (visitFile now sha256 cfg st f).file_hashes = st.file_hashes
    ∧ (visitFile now sha256 cfg st f).scan_errors = st.scan_errors := by
  constructor
  · rw [visit_fh]
    unfold dupStep fileDigest
    rw [hst]
    dsimp only
    rw [if_pos hm, hc]
  · rw [visit_err]
    unfold errEntryOf
    rw [gfa_of_statOk_true f now cfg.months cfg.oversized_threshold cfg.download_stale_secs hst]
    exact List.append_nil _

/-- C8 amended witness: visiting `data.bin` with unreadable content changes
neither `file_hashes` nor `scan_errors`. -/
theorem c8_read_error_amended_witness :
    (visitFile 0 sha0 cfg0 initState f8).file_hashes = initState.file_hashes
    ∧ (visitFile 0 sha0 cfg0 initState f8).scan_errors = initState.scan_errors :=
  c8_read_error_amended 0 sha0 cfg0 initState f8 rfl (by decide) rfl

/-- C9 counterexample: with the out-of-range threshold `months = -1` the
scan does not fail fast: it visits the file, classifies it (here even as
old, because the negative threshold lies in the future) and returns a full
5-component report, contradicting "no file is visited and no partial
report is produced under an invalid configuration". -/
theorem c9_no_config_validation_counterexample :
    analyze_files rootOK [fW1] 0 sha0 ⟨0, -1, 1024 * 1024 * 1024, 3600⟩
      = [RetComp.oversizedL [], RetComp.oldL [(fullPath fW1, 0, 0)],
         RetComp.junkL [(fullPath fW1, "Empty File")], RetComp.dupM [], RetComp.errL []] := by
  decide

/-- C9 amended: `analyze_files` performs no validation of the four
thresholds: for every integer values, including out-of-range ones, a scan
over a valid root returns the full 5-component report and visits every
file of the traversal (a file whose metadata read fails contributes its
error entry regardless of the configuration). -/
theorem c9_no_config_validation (minD months ot ds : Int) (root : RootArg)
    (walk pre post : List FileEntry) (f : FileEntry) (now : Int)
    (sha256 : List UInt8 → String) (p : Str)
    (hv : validate_directory_path root = some p) (hw : walk = pre ++ f :: post)
    (hst : f.statOk = false) :
    (analyze_files root walk now sha256 ⟨minD, months, ot, ds⟩).length = 5
    ∧ ("Error accessing ".toList ++ fullPath f)
        ∈ (scanFold now sha256 ⟨minD, months, ot, ds⟩ walk).scan_errors := by
  constructor
  · unfold analyze_files
    rw [hv]
    rfl
  · rw [hw, scanFold_eq]
    dsimp only
    rw [perFileList_append]
    have he : errEntryOf now ⟨minD, months, ot, ds⟩ f
        = ["Error accessing ".toList ++ fullPath f] := by
      unfold errEntryOf
      rw [gfa_of_statOk_false f now months ot ds hst]
    simp [perFileList, he, List.mem_append]

/-- A file whose `os.stat` fails. -/
def fW9 : FileEntry := ⟨"/d".toList, "gone.txt".toList, 0, 0, 0, false, none⟩

/-- C9 amended witness: with the malformed thresholds `(-7, -5, -1, -3600)`
the scan still runs, returns 5 components and records the stat failure. -/
theorem c9_no_config_validation_witness :
    (analyze_files rootOK [fW9] 0 sha0 ⟨-7, -5, -1, -3600⟩).length = 5
    ∧ ("Error accessing ".toList ++ fullPath fW9)
        ∈ (scanFold 0 sha0 ⟨-7, -5, -1, -3600⟩ [fW9]).scan_errors :=
  c9_no_config_validation (-7) (-5) (-1) (-3600) rootOK [fW9] [] [] fW9 0 sha0
    "/d".toList (by decide) rfl rfl

/-- C10: when root validation rejects the argument, `analyze_files` returns
the 4-component result `([], [], [], [])` with no error-list slot; when
validation succeeds, the result has 5 components and its last component is
the error list — so a caller unpacking five components fails exactly on an
invalid root. -/
theorem c10_return_arity (root : RootArg) (walk : List FileEntry) (now : Int)
    (sha256 : List UInt8 → String) (cfg : ScanConfig) :
    (validate_directory_path root = none →
      analyze_files root walk now sha256 cfg
          = [RetComp.oversizedL [], RetComp.oldL [], RetComp.junkL [], RetComp.dupM []]
        ∧ (analyze_files root walk now sha256 cfg).length = 4)
    ∧ (∀ p, validate_directory_path root = some p →
      (analyze_files root walk now sha256 cfg).length = 5
        ∧ (analyze_files root walk now sha256 cfg).getLast?
            = some (RetComp.errL (scanFold now sha256 cfg walk).scan_errors)) := by
  constructor
  · intro hv
    unfold analyze_files
    rw [hv]
    exact ⟨rfl, rfl⟩
  · intro p hv
    unfold analyze_files
    rw [hv]
    exact ⟨rfl, rfl⟩

/-- C10 witness: a `None` root yields the bare 4-tuple; a valid root yields
5 components ending in the error list. -/
theorem c10_return_arity_witness :
    (analyze_files rootBad [] 0 sha0 cfg0
        = [RetComp.oversizedL [], RetComp.oldL [], RetComp.junkL [], RetComp.dupM []]
      ∧ (analyze_files rootBad [] 0 sha0 cfg0).length = 4)
    ∧ ((analyze_files rootOK [] 0 sha0 cfg0).length = 5
      ∧ (analyze_files rootOK [] 0 sha0 cfg0).getLast?
          = some (RetComp.errL (scanFold 0 sha0 cfg0 []).scan_errors)) :=
  ⟨(c10_return_arity rootBad [] 0 sha0 cfg0).1 (by decide),
   (c10_return_arity rootOK [] 0 sha0 cfg0).2 "/d".toList (by decide)⟩
